import Mathlib

/-!
# FuncInterceptor (MBExtender plugin loader)

A shallow embedding of `src/PluginLoader/FuncInterceptor.cpp`:
`interceptImpl`, the two `restore` overloads, `restoreAll` and the destructor,
over an explicit process memory.  The public `intercept` of
`PluginInterface.h` is a cast around `interceptImpl`.  The classes the file
calls into whose sources are not available (`CodeStream`,
`TrampolineGenerator`, the `originalFunctions` container declared in
`FuncInterceptor.h`) are modelled from the specification and are marked so.
-/

namespace CodeInjection

/-! ## Pointers and memory -/

/-- A `void*`.  The thunk prologue `ThunkCode` is IA-32 code and a relative
jump carries a 32-bit displacement, so a pointer is a 32-bit address; the null
pointer is `0`. -/
abbrev Ptr := Fin 4294967296

/-- The pointer with address `n` modulo `2^32`. -/
def toPtr (n : Nat) : Ptr := ⟨n % 4294967296, Nat.mod_lt n (by decide)⟩

/-- Process memory: the byte stored at each address, `none` where the address
cannot be read. -/
abbrev Memory := Nat → Option Nat

/-- Size of a 32-bit relative jump (`JumpSize` in the source). -/
def JumpSize : Nat := 5

/-- Code for a thunk function which creates and destroys a stack frame
(`ThunkCode` in the source). -/
def ThunkCode : List Nat := [0x55, 0x89, 0xE5, 0x5D]

/-- The `n` bytes stored from address `a` on, `none` when one of them cannot be
read. -/
def readBytes (mem : Memory) (a : Nat) : Nat → Option (List Nat)
  | 0 => some []
  | n + 1 =>
    match mem a, readBytes mem (a + 1) n with
    | some b, some bs => some (b :: bs)
    | _, _ => none

/-- Memory after storing the bytes `bs` from address `a` on. -/
def writeBytes (mem : Memory) (a : Nat) : List Nat → Memory
  | [] => mem
  | b :: bs => writeBytes (fun x => if x = a then some b else mem x) (a + 1) bs

/-- The four little-endian bytes of a 32-bit displacement. -/
def le32Bytes (d : Nat) : List Nat :=
  [d % 256, d / 256 % 256, d / 65536 % 256, d / 16777216 % 256]

/-- The 32-bit displacement that leads from address `src` to `target`
(two's complement, so a backward jump is a large unsigned value). -/
def rel32 (src : Nat) (target : Nat) : Nat :=
  (target + 4294967296 - src % 4294967296) % 4294967296

/-- The target of the relative jump encoded at address `a`: the opcode `0xE9`
followed by a little-endian 32-bit displacement, taken from the end of the
five-byte instruction.  `none` when the bytes at `a` are not such a jump. -/
def jumpTarget (mem : Memory) (a : Nat) : Option Ptr :=
  match readBytes mem a 5 with
  | some [op, b0, b1, b2, b3] =>
    if op = 0xE9 then
      some (toPtr (a + 5 + (b0 + 256 * b1 + 65536 * b2 + 16777216 * b3)))
    else none
  | _ => none

/-! ## CodeStream -/

/-- Modelled from the spec: `CodeStream` (its source is not available) is a
cursor over raw memory (spec section 4.2). -/
structure CodeStream where
  /-- The absolute address of the cursor. -/
  currentPtr : Nat
deriving DecidableEq, Repr

namespace CodeStream

/-- Modelled from the spec: `seekTo(address)` repositions the cursor to an
absolute address, with no validation. -/
def seekTo (_st : CodeStream) (address : Ptr) : CodeStream :=
  { currentPtr := address.val }

/-- Modelled from the spec: `read(buffer, n)` copies `n` bytes from the cursor
and advances it, and fails when the region is not readable.  The first
component is the buffer on success and `none` on failure. -/
def read (st : CodeStream) (mem : Memory) (n : Nat) : Option (List Nat) × CodeStream :=
  match readBytes mem st.currentPtr n with
  | some bs => (some bs, { currentPtr := st.currentPtr + n })
  | none => (none, st)

/-- Modelled from the spec: `peekRel32Jump()` inspects the bytes at the cursor
without consuming them; when they encode a relative jump it returns the
absolute target address, else null.  The cursor does not move. -/
def peekRel32Jump (st : CodeStream) (mem : Memory) : Ptr :=
  (jumpTarget mem st.currentPtr).getD 0

/-- Modelled from the spec: `writeRel32Jump(target)` computes the displacement
from the cursor address plus the instruction length to `target` and writes the
five-byte jump encoding at the cursor.  The spec does not say where the cursor
is afterwards and every caller seeks before its next use, so the cursor is
left alone. -/
def writeRel32Jump (st : CodeStream) (mem : Memory) (target : Ptr) : Memory :=
  writeBytes mem st.currentPtr (0xE9 :: le32Bytes (rel32 (st.currentPtr + 5) target.val))

end CodeStream

/-! ## The interception map -/

/-- Modelled from the spec: `originalFunctions` is declared in
`FuncInterceptor.h`, which is not available.  It is the
interception map from a function address to its original pointer, kept as an
association list in increasing key order, which is also the order in which
`restoreAll` walks it. -/
abbrev FuncMap := List (Ptr × Ptr)

namespace FuncMap

/-- The record of `k`, as `originalFunctions.find(k)`. -/
def find (k : Ptr) : FuncMap → Option Ptr
  | [] => none
  | (k', v) :: t => if k' = k then some v else find k t

/-- The map after `originalFunctions[k] = v`: the record of `k` is replaced,
or created at its place in key order. -/
def set (k v : Ptr) : FuncMap → FuncMap
  | [] => [(k, v)]
  | (k', v') :: t =>
    if k.val < k'.val then (k, v) :: (k', v') :: t
    else if k = k' then (k, v) :: t
    else (k', v') :: set k v t

/-- The map after erasing the record of `k`. -/
def erase (k : Ptr) : FuncMap → FuncMap
  | [] => []
  | (k', v) :: t => if k' = k then erase k t else (k', v) :: erase k t

/-- The records are in increasing key order and the five-byte entries of any
two recorded functions do not overlap. -/
def Spaced (m : FuncMap) : Prop :=
  m.Pairwise (fun a b => a.1.val + 5 ≤ b.1.val)

end FuncMap

/-! ## FuncInterceptor -/

/-- Modelled from the spec: `TrampolineGenerator::createTrampoline` (its source
is not available) is taken as a parameter.  Given the
generator state, the memory, the target function and the minimum number of
bytes, it returns the trampoline address (null on failure) and the next
generator state.  Trampolines are written into code buffers owned by the
allocator alone (spec section 3), which belong to the generator state here. -/
abbrev TrampolineGenerator (σ : Type) := σ → Memory → Ptr → Nat → Ptr × σ

/-- The interceptor together with the memory it patches. -/
structure FuncInterceptor (σ : Type) where
  /-- The process memory. -/
  mem : Memory
  /-- The `CodeStream *stream` member; `none` is `nullptr`. -/
  stream : Option CodeStream
  /-- The state of the `trampolineGen` member. -/
  trampolineGen : σ
  /-- The arguments of every `createTrampoline` call made so far, most recent
  first (a record of the calls, not a member of the class). -/
  trampolineCalls : List (Ptr × Nat)
  /-- The `originalFunctions` member. -/
  originalFunctions : FuncMap

variable {σ : Type}

/-- The function `FuncInterceptor::interceptImpl(func, newFunc)`: the returned
pointer (null on failure) and the state after the call. -/
def interceptImpl (tg : TrampolineGenerator σ) (s : FuncInterceptor σ)
    (func newFunc : Ptr) : Ptr × FuncInterceptor σ :=
  match s.stream with
  | none => (0, s)
  | some stream =>
    if func = 0 ∨ newFunc = 0 then (0, s)
    else
      -- the function may be a thunk: it only does a relative jump
      let st1 := stream.seekTo func
      let peeked := st1.peekRel32Jump s.mem
      -- or it creates and destroys a stack frame first before jumping
      -- (the stream after the test, and `originalFunc`)
      let thunk : CodeStream × Ptr :=
        if peeked = 0 then
          let r := st1.read s.mem ThunkCode.length
          if r.1 = some ThunkCode then (r.2, r.2.peekRel32Jump s.mem)
          else (r.2, peeked)
        else (st1, peeked)
      if thunk.2 = 0 then
        -- not a thunk: create a trampoline
        let t := tg s.trampolineGen s.mem func JumpSize
        if t.1 = 0 then
          (0, { s with stream := some thunk.1, trampolineGen := t.2,
                       trampolineCalls := (func, JumpSize) :: s.trampolineCalls })
        else
          -- write a jump to the new function and store the original pointer
          let st3 := thunk.1.seekTo func
          (t.1, { mem := st3.writeRel32Jump s.mem newFunc,
                  stream := some st3,
                  trampolineGen := t.2,
                  trampolineCalls := (func, JumpSize) :: s.trampolineCalls,
                  originalFunctions := s.originalFunctions.set func t.1 })
      else
        -- write a jump to the new function and store the original pointer
        let st3 := thunk.1.seekTo func
        (thunk.2, { s with mem := st3.writeRel32Jump s.mem newFunc,
                           stream := some st3,
                           originalFunctions := s.originalFunctions.set func thunk.2 })

/-- The thunk test of `interceptImpl` on its own: the stream after the test and
the value of `originalFunc` before a trampoline is asked for. -/
def thunkTest (stream : CodeStream) (mem : Memory) (func : Ptr) : CodeStream × Ptr :=
  if (stream.seekTo func).peekRel32Jump mem = 0 then
    if ((stream.seekTo func).read mem ThunkCode.length).1 = some ThunkCode then
      (((stream.seekTo func).read mem ThunkCode.length).2,
        ((stream.seekTo func).read mem ThunkCode.length).2.peekRel32Jump mem)
    else (((stream.seekTo func).read mem ThunkCode.length).2,
        (stream.seekTo func).peekRel32Jump mem)
  else (stream.seekTo func, (stream.seekTo func).peekRel32Jump mem)

/-- The function `FuncInterceptor::restore(func, oldFunc)`: points `func` back
at its old code. -/
def restoreTo (s : FuncInterceptor σ) (func oldFunc : Ptr) : FuncInterceptor σ :=
  match s.stream with
  | none => s
  | some stream =>
    let st := stream.seekTo func
    { s with mem := st.writeRel32Jump s.mem oldFunc, stream := some st }

/-- The function `FuncInterceptor::restore(func)`. -/
def restore (s : FuncInterceptor σ) (func : Ptr) : FuncInterceptor σ :=
  match s.stream with
  | none => s
  | some _ =>
    match s.originalFunctions.find func with
    | none => s
    | some oldFunc =>
      let s1 := restoreTo s func oldFunc
      { s1 with originalFunctions := s1.originalFunctions.erase func }

/-- The function `FuncInterceptor::restoreAll()`: every record is restored in
the order of the map, and the map is cleared. -/
def restoreAll (s : FuncInterceptor σ) : FuncInterceptor σ :=
  { s.originalFunctions.foldl (fun acc p => restoreTo acc p.1 p.2) s with
    originalFunctions := [] }

/-- The destructor `FuncInterceptor::~FuncInterceptor()`, as far as the memory
and the map are concerned. -/
def destroy (s : FuncInterceptor σ) : FuncInterceptor σ :=
  match s.stream with
  | none => s
  | some _ => restoreAll s

/-- The five bytes at the entry of `func` encode a relative jump to `target`. -/
def IsJumpTo (mem : Memory) (func target : Ptr) : Prop :=
  jumpTarget mem func.val = some target

instance (mem : Memory) (func target : Ptr) : Decidable (IsJumpTo mem func target) :=
  inferInstanceAs (Decidable (jumpTarget mem func.val = some target))

/-- The entry of `func` is recognised as a thunk by `interceptImpl`: the entry
is a relative jump to a non-null target, or it is the frame prologue
`ThunkCode` followed by such a jump. -/
def IsThunk (mem : Memory) (func : Ptr) : Prop :=
  (jumpTarget mem func.val).getD 0 ≠ 0 ∨
    (readBytes mem func.val 4 = some ThunkCode ∧ (jumpTarget mem (func.val + 4)).getD 0 ≠ 0)

instance (mem : Memory) (func : Ptr) : Decidable (IsThunk mem func) :=
  inferInstanceAs (Decidable (_ ∨ _))

/-! ## Sequences of calls -/

/-- The calls `intercept(func, newFunc)` for the pairs of `calls` in turn: the
pointers they return, in the same order, and the state after the last call. -/
def interceptAll (tg : TrampolineGenerator σ) (s : FuncInterceptor σ) :
    List (Ptr × Ptr) → List Ptr × FuncInterceptor σ
  | [] => ([], s)
  | c :: cs =>
    ((interceptImpl tg s c.1 c.2).1 :: (interceptAll tg (interceptImpl tg s c.1 c.2).2 cs).1,
      (interceptAll tg (interceptImpl tg s c.1 c.2).2 cs).2)

/-- The five-byte entry of `func` overlaps the entry of no other function that
has a record in `s`. -/
def Apart (s : FuncInterceptor σ) (func : Ptr) : Prop :=
  ∀ p ∈ s.originalFunctions, p.1 = func ∨ p.1.val + 5 ≤ func.val ∨ func.val + 5 ≤ p.1.val

/-- The states reachable from a new interceptor by `intercept`, `restore` and
`restoreAll` calls, each with the replacement function given to the most recent
successful `intercept` of every function.  A successful `intercept` is only
counted on a target that `ok` admits in the state of the call. -/
inductive Reach (tg : TrampolineGenerator σ) (ok : FuncInterceptor σ → Ptr → Prop) :
    FuncInterceptor σ → (Ptr → Option Ptr) → Prop
  | fresh (s : FuncInterceptor σ) :
      s.originalFunctions = [] → Reach tg ok s (fun _ => none)
  | interceptOk {s : FuncInterceptor σ} {h : Ptr → Option Ptr} (func newFunc : Ptr) :
      Reach tg ok s h → ok s func → (interceptImpl tg s func newFunc).1 ≠ 0 →
      Reach tg ok (interceptImpl tg s func newFunc).2
        (fun f => if f = func then some newFunc else h f)
  | interceptFail {s : FuncInterceptor σ} {h : Ptr → Option Ptr} (func newFunc : Ptr) :
      Reach tg ok s h → (interceptImpl tg s func newFunc).1 = 0 →
      Reach tg ok (interceptImpl tg s func newFunc).2 h
  | restore {s : FuncInterceptor σ} {h : Ptr → Option Ptr} (func : Ptr) :
      Reach tg ok s h → Reach tg ok (restore s func) h
  | restoreAll {s : FuncInterceptor σ} {h : Ptr → Option Ptr} :
      Reach tg ok s h → Reach tg ok (restoreAll s) h

/-! ## Concrete interceptors -/

/-- A trampoline generator that hands out 16-byte blocks from address `0x5000`
on and never fails. -/
def bumpGen : TrampolineGenerator Nat :=
  fun n _ _ _ => (toPtr (0x5000 + 16 * n), n + 1)

/-- A trampoline generator whose allocator always fails. -/
def failGen : TrampolineGenerator Nat :=
  fun n _ _ _ => (0, n)

/-- Memory holding `bytes` from address `base` on and `nop` everywhere else. -/
def codeAt (base : Nat) (bytes : List Nat) : Memory :=
  writeBytes (fun _ => some 0x90) base bytes

/-- A new interceptor over `mem`: its stream is at `stream` and nothing is
intercepted. -/
def fresh (mem : Memory) (stream : Option CodeStream) : FuncInterceptor Nat :=
  { mem := mem, stream := stream, trampolineGen := 0, trampolineCalls := [],
    originalFunctions := [] }

/-- An ordinary function at `0x1000`: `push ebp; mov ebp, esp; sub esp, 8`. -/
def plainCode : Memory := codeAt 0x1000 [0x55, 0x89, 0xE5, 0x83, 0xEC, 0x08]

/-- A thunk at `0x1000`: `jmp 0x2000`. -/
def thunkCode : Memory := codeAt 0x1000 [0xE9, 0xFB, 0x0F, 0x00, 0x00]

/-- A thunk at `0x1000` with a stack frame:
`push ebp; mov ebp, esp; pop ebp; jmp 0x2000`. -/
def frameThunkCode : Memory :=
  codeAt 0x1000 [0x55, 0x89, 0xE5, 0x5D, 0xE9, 0xF7, 0x0F, 0x00, 0x00]

/-- A three-byte function at `0x1000` (`xor eax, eax; ret`) directly followed
by an ordinary function at `0x1003`. -/
def tightCode : Memory :=
  codeAt 0x1000 [0x31, 0xC0, 0xC3, 0x55, 0x89, 0xE5, 0x83, 0xEC, 0x08]

/-- Two hooks on functions far apart: `0x1000` and `0x1800`. -/
def hookApart : List (Ptr × Ptr) := [(0x1000, 0x3000), (0x1800, 0x3100)]

/-- The function at `0x1000` hooked twice. -/
def hookTwice : List (Ptr × Ptr) := [(0x1000, 0x3000), (0x1000, 0x3100)]

/-- Hooks on the two functions of `tightCode`, three bytes apart. -/
def hookTight : List (Ptr × Ptr) := [(0x1000, 0x3000), (0x1003, 0x3100)]

/-- The interceptor over `plainCode` after the successful call
`intercept(0x1000, 0x3000)`. -/
def plainHooked : FuncInterceptor Nat :=
  (interceptImpl bumpGen (fresh plainCode (some ⟨0⟩)) 0x1000 0x3000).2

/-- The most recent replacement of every function in `plainHooked`. -/
def plainReplacements : Ptr → Option Ptr :=
  fun f => if f = 0x1000 then some 0x3000 else none

/-- The interceptor over `tightCode` after the successful calls
`intercept(0x1000, 0x3000)` and `intercept(0x1003, 0x3100)`. -/
def tightHooked : FuncInterceptor Nat :=
  (interceptImpl bumpGen
    (interceptImpl bumpGen (fresh tightCode (some ⟨0⟩)) 0x1000 0x3000).2 0x1003 0x3100).2

/-- The most recent replacement of every function in `tightHooked`. -/
def tightReplacements : Ptr → Option Ptr :=
  fun f => if f = 0x1003 then some 0x3100 else if f = 0x1000 then some 0x3000 else none

/-! # Theorems -/

/-! ## Memory and jump encoding -/

theorem writeBytes_apply (bs : List Nat) : ∀ (mem : Memory) (a x : Nat),
    writeBytes mem a bs x = if a ≤ x ∧ x < a + bs.length then bs[x - a]? else mem x := by
  induction bs with
  | nil =>
    intro mem a x
    have h : ¬ (a ≤ x ∧ x < a + ([] : List Nat).length) := by
      simp only [List.length_nil]; omega
    rw [if_neg h]; rfl
  | cons b t ih =>
    intro mem a x
    simp only [writeBytes, ih, List.length_cons]
    by_cases h1 : x = a
    · subst h1; simp
    · by_cases h2 : a + 1 ≤ x ∧ x < a + 1 + t.length
      · have h3 : a ≤ x ∧ x < a + (t.length + 1) := by omega
        have h4 : x - a = (x - (a + 1)) + 1 := by omega
        rw [if_pos h2, if_pos h3, h4, List.getElem?_cons_succ]
      · have h3 : ¬ (a ≤ x ∧ x < a + (t.length + 1)) := by omega
        rw [if_neg h2, if_neg h3, if_neg h1]

theorem readBytes_congr (n : Nat) : ∀ (mem mem2 : Memory) (a : Nat),
    (∀ x, a ≤ x → x < a + n → mem2 x = mem x) → readBytes mem2 a n = readBytes mem a n := by
  induction n with
  | zero => intro mem mem2 a _; rfl
  | succ n ih =>
    intro mem mem2 a h
    simp only [readBytes]
    rw [h a (le_refl a) (by omega), ih mem mem2 (a + 1) (fun x h1 h2 => h x (by omega) (by omega))]

theorem readBytes_writeBytes (bs : List Nat) : ∀ (mem : Memory) (a : Nat),
    readBytes (writeBytes mem a bs) a bs.length = some bs := by
  induction bs with
  | nil => intro mem a; rfl
  | cons b t ih =>
    intro mem a
    simp only [List.length_cons, readBytes]
    have h1 : writeBytes mem a (b :: t) a = some b := by
      rw [writeBytes_apply]; simp
    rw [h1]
    simp only [writeBytes, ih]

theorem le32_decode (d : Nat) (h : d < 4294967296) :
    d % 256 + 256 * (d / 256 % 256) + 65536 * (d / 65536 % 256)
      + 16777216 * (d / 16777216 % 256) = d := by
  omega

theorem jumpTarget_congr (mem mem2 : Memory) (a : Nat)
    (h : ∀ x, a ≤ x → x < a + 5 → mem2 x = mem x) : jumpTarget mem2 a = jumpTarget mem a := by
  unfold jumpTarget
  rw [readBytes_congr 5 mem mem2 a h]

/-- A jump written at the entry of `func` decodes to its target. -/
theorem jumpTarget_writeRel32Jump (mem : Memory) (func target : Ptr) (st : CodeStream) :
    jumpTarget ((st.seekTo func).writeRel32Jump mem target) func.val = some target := by
  unfold CodeStream.writeRel32Jump CodeStream.seekTo jumpTarget
  have h := readBytes_writeBytes (0xE9 :: le32Bytes (rel32 (func.val + 5) target.val)) mem func.val
  simp only [le32Bytes, List.length_cons, List.length_nil] at h
  simp only [le32Bytes]
  rw [h]
  simp only [if_true]
  have hd : rel32 (func.val + 5) target.val < 4294967296 := Nat.mod_lt _ (by decide)
  rw [le32_decode _ hd]
  congr 1
  apply Fin.ext
  simp only [toPtr, rel32]
  have := target.isLt
  omega

/-- A jump written at the entry of `func` leaves every byte outside the five
bytes of that entry as it was. -/
theorem writeRel32Jump_apply_of_outside (mem : Memory) (func target : Ptr) (st : CodeStream)
    (x : Nat) (h : x < func.val ∨ func.val + 5 ≤ x) :
    (st.seekTo func).writeRel32Jump mem target x = mem x := by
  unfold CodeStream.writeRel32Jump CodeStream.seekTo
  rw [writeBytes_apply]
  simp only [le32Bytes, List.length_cons, List.length_nil]
  rw [if_neg (by omega)]

/-! ## The interception map -/

namespace FuncMap

theorem find_set_self (k v : Ptr) (m : FuncMap) : find k (set k v m) = some v := by
  induction m with
  | nil => simp [set, find]
  | cons p t ih =>
    obtain ⟨k', v'⟩ := p
    simp only [set]
    split
    · simp [find]
    · split
      · simp [find]
      · rename_i h1 h2
        simp only [find]
        rw [if_neg (fun h => h2 h.symm)]
        exact ih

theorem find_set_ne (k v k2 : Ptr) (m : FuncMap) (h : k2 ≠ k) :
    find k2 (set k v m) = find k2 m := by
  induction m with
  | nil => simp [set, find, h.symm]
  | cons p t ih =>
    obtain ⟨k', v'⟩ := p
    simp only [set]
    split
    · simp [find, h.symm]
    · split
      · rename_i h1 h2
        subst h2
        simp [find, h.symm]
      · simp only [find, ih]

theorem find_erase_self (k : Ptr) (m : FuncMap) : find k (erase k m) = none := by
  induction m with
  | nil => rfl
  | cons p t ih =>
    obtain ⟨k', v'⟩ := p
    by_cases h : k' = k
    · simp [erase, h, ih]
    · simp [erase, h, find, ih]

theorem find_erase_ne (k k2 : Ptr) (m : FuncMap) (h : k2 ≠ k) :
    find k2 (erase k m) = find k2 m := by
  induction m with
  | nil => rfl
  | cons p t ih =>
    obtain ⟨k', v'⟩ := p
    by_cases h1 : k' = k
    · subst h1
      simp [erase, find, ih, h.symm]
    · simp [erase, h1, find, ih]

theorem erase_of_find_none (k : Ptr) (m : FuncMap) (h : find k m = none) : erase k m = m := by
  induction m with
  | nil => rfl
  | cons p t ih =>
    obtain ⟨k', v'⟩ := p
    simp only [find] at h
    by_cases h1 : k' = k
    · simp [h1] at h
    · rw [if_neg h1] at h
      simp [erase, h1, ih h]

theorem erase_set_of_find_none (k v : Ptr) (m : FuncMap) (h : find k m = none) :
    erase k (set k v m) = m := by
  induction m with
  | nil => simp [set, erase]
  | cons p t ih =>
    obtain ⟨k', v'⟩ := p
    have h0 := h
    simp only [find] at h
    by_cases h1 : k' = k
    · simp [h1] at h
    · rw [if_neg h1] at h
      have h2 : k ≠ k' := fun e => h1 e.symm
      simp only [set, if_neg h2]
      split
      · rw [erase, if_pos rfl]
        exact erase_of_find_none k _ h0
      · rw [erase, if_neg h1, ih h]

theorem erase_sublist (k : Ptr) (m : FuncMap) : List.Sublist (erase k m) m := by
  induction m with
  | nil => exact List.Sublist.refl _
  | cons p t ih =>
    obtain ⟨k', v'⟩ := p
    simp only [erase]
    split
    · exact List.Sublist.cons _ ih
    · exact List.Sublist.cons₂ _ ih

theorem mem_of_find (k v : Ptr) (m : FuncMap) (h : find k m = some v) : (k, v) ∈ m := by
  induction m with
  | nil => simp [find] at h
  | cons p t ih =>
    obtain ⟨k', v'⟩ := p
    simp only [find] at h
    by_cases h1 : k' = k
    · rw [if_pos h1] at h
      simp only [Option.some.injEq] at h
      simp [h1, h]
    · rw [if_neg h1] at h
      exact List.mem_cons_of_mem _ (ih h)

theorem mem_set (k v : Ptr) (m : FuncMap) (p : Ptr × Ptr) (h : p ∈ set k v m) :
    p = (k, v) ∨ p ∈ m := by
  induction m with
  | nil => simpa [set] using h
  | cons q t ih =>
    obtain ⟨k', v'⟩ := q
    simp only [set] at h
    split at h
    · simpa using h
    · split at h
      · simp only [List.mem_cons] at h ⊢
        tauto
      · simp only [List.mem_cons] at h ⊢
        rcases h with h | h
        · tauto
        · have := ih h
          tauto

theorem spaced_set (k v : Ptr) (m : FuncMap) (hm : Spaced m)
    (hk : ∀ p ∈ m, p.1 = k ∨ p.1.val + 5 ≤ k.val ∨ k.val + 5 ≤ p.1.val) :
    Spaced (set k v m) := by
  induction m with
  | nil => simp [set, Spaced]
  | cons q t ih =>
    obtain ⟨k', v'⟩ := q
    unfold Spaced at hm ih ⊢
    rw [List.pairwise_cons] at hm
    have hq := hk (k', v') (List.mem_cons_self _ _)
    simp only at hq
    simp only [set]
    split
    · rename_i h1
      rw [List.pairwise_cons, List.pairwise_cons]
      refine ⟨?_, hm⟩
      intro p hp
      simp only [List.mem_cons] at hp
      have h2 : k.val + 5 ≤ k'.val := by
        rcases hq with h | h | h
        · subst h; omega
        · omega
        · exact h
      rcases hp with hp | hp
      · subst hp; exact h2
      · have := hm.1 p hp
        simp only at this ⊢
        omega
    · split
      · rename_i h1 h2
        subst h2
        rw [List.pairwise_cons]
        exact ⟨hm.1, hm.2⟩
      · rename_i h1 h2
        rw [List.pairwise_cons]
        have h3 : k'.val + 5 ≤ k.val := by
          rcases hq with h | h | h
          · exact absurd h.symm h2
          · exact h
          · omega
        refine ⟨?_, ih hm.2 (fun p hp => hk p (List.mem_cons_of_mem _ hp))⟩
        intro p hp
        rcases mem_set k v t p hp with h | h
        · subst h; exact h3
        · exact hm.1 p h

theorem spaced_erase (k : Ptr) (m : FuncMap) (hm : Spaced m) : Spaced (erase k m) :=
  List.Pairwise.sublist (erase_sublist k m) hm

theorem spaced_nodup (m : FuncMap) (hm : Spaced m) : (m.map Prod.fst).Nodup := by
  unfold Spaced at hm
  unfold List.Nodup
  rw [List.pairwise_map]
  refine hm.imp ?_
  intro a b h e
  rw [e] at h
  omega

end FuncMap

/-! ## interceptImpl -/

theorem interceptImpl_eq (tg : TrampolineGenerator σ) (s : FuncInterceptor σ)
    (func newFunc : Ptr) (stream : CodeStream) (hs : s.stream = some stream)
    (hf : func ≠ 0) (hn : newFunc ≠ 0) :
    interceptImpl tg s func newFunc =
      if (thunkTest stream s.mem func).2 = 0 then
        if (tg s.trampolineGen s.mem func JumpSize).1 = 0 then
          (0, { s with stream := some (thunkTest stream s.mem func).1,
                       trampolineGen := (tg s.trampolineGen s.mem func JumpSize).2,
                       trampolineCalls := (func, JumpSize) :: s.trampolineCalls })
        else
          ((tg s.trampolineGen s.mem func JumpSize).1,
            { mem := CodeStream.writeRel32Jump ⟨func.val⟩ s.mem newFunc,
              stream := some ⟨func.val⟩,
              trampolineGen := (tg s.trampolineGen s.mem func JumpSize).2,
              trampolineCalls := (func, JumpSize) :: s.trampolineCalls,
              originalFunctions :=
                s.originalFunctions.set func (tg s.trampolineGen s.mem func JumpSize).1 })
      else
        ((thunkTest stream s.mem func).2,
          { s with mem := CodeStream.writeRel32Jump ⟨func.val⟩ s.mem newFunc,
                   stream := some ⟨func.val⟩,
                   originalFunctions :=
                     s.originalFunctions.set func (thunkTest stream s.mem func).2 }) := by
  have hg : ¬ (func = 0 ∨ newFunc = 0) := fun h => h.elim hf hn
  unfold interceptImpl
  rw [hs]
  simp only [if_neg hg]
  rfl

theorem interceptImpl_of_fail (tg : TrampolineGenerator σ) (s : FuncInterceptor σ)
    (func newFunc : Ptr) (h : (interceptImpl tg s func newFunc).1 = 0) :
    (interceptImpl tg s func newFunc).2.mem = s.mem ∧
    (interceptImpl tg s func newFunc).2.originalFunctions = s.originalFunctions ∧
    (interceptImpl tg s func newFunc).2.stream.isSome = s.stream.isSome := by
  cases hs : s.stream with
  | none => simp [interceptImpl, hs]
  | some stream =>
    by_cases hg : func = 0 ∨ newFunc = 0
    · simp [interceptImpl, hg, hs]
    · have hf : func ≠ 0 := fun e => hg (Or.inl e)
      have hn : newFunc ≠ 0 := fun e => hg (Or.inr e)
      rw [interceptImpl_eq tg s func newFunc stream hs hf hn] at h ⊢
      generalize thunkTest stream s.mem func = th at h ⊢
      generalize tg s.trampolineGen s.mem func JumpSize = t at h ⊢
      split_ifs at h ⊢ with h1 h2
      · simp
      · exact absurd h h2
      · exact absurd h h1

theorem interceptImpl_of_ok (tg : TrampolineGenerator σ) (s : FuncInterceptor σ)
    (func newFunc : Ptr) (h : (interceptImpl tg s func newFunc).1 ≠ 0) :
    (interceptImpl tg s func newFunc).2.mem
        = CodeStream.writeRel32Jump ⟨func.val⟩ s.mem newFunc ∧
    (interceptImpl tg s func newFunc).2.originalFunctions
        = s.originalFunctions.set func (interceptImpl tg s func newFunc).1 ∧
    (interceptImpl tg s func newFunc).2.stream = some ⟨func.val⟩ ∧
    s.stream.isSome = true ∧ func ≠ 0 ∧ newFunc ≠ 0 := by
  cases hs : s.stream with
  | none => simp [interceptImpl, hs] at h
  | some stream =>
    by_cases hg : func = 0 ∨ newFunc = 0
    · simp [interceptImpl, hg, hs] at h
    · have hf : func ≠ 0 := fun e => hg (Or.inl e)
      have hn : newFunc ≠ 0 := fun e => hg (Or.inr e)
      rw [interceptImpl_eq tg s func newFunc stream hs hf hn] at h ⊢
      generalize thunkTest stream s.mem func = th at h ⊢
      generalize tg s.trampolineGen s.mem func JumpSize = t at h ⊢
      split_ifs at h ⊢ with h1 h2
      · exact absurd rfl h
      · simp [hf, hn]
      · simp [hf, hn]

theorem read_fst (st : CodeStream) (mem : Memory) (n : Nat) :
    (st.read mem n).1 = readBytes mem st.currentPtr n := by
  unfold CodeStream.read
  cases readBytes mem st.currentPtr n <;> rfl

theorem read_snd_of_some (st : CodeStream) (mem : Memory) (n : Nat) (bs : List Nat)
    (h : readBytes mem st.currentPtr n = some bs) :
    (st.read mem n).2 = ⟨st.currentPtr + n⟩ := by
  unfold CodeStream.read
  rw [h]

/-- What the thunk test finds, in terms of the bytes at the entry. -/
theorem thunkTest_snd (stream : CodeStream) (mem : Memory) (func : Ptr) :
    (thunkTest stream mem func).2 =
      if (jumpTarget mem func.val).getD 0 = 0 then
        if readBytes mem func.val 4 = some ThunkCode then
          (jumpTarget mem (func.val + 4)).getD 0
        else 0
      else (jumpTarget mem func.val).getD 0 := by
  unfold thunkTest
  simp only [read_fst, CodeStream.seekTo, CodeStream.peekRel32Jump]
  have hl : ThunkCode.length = 4 := rfl
  rw [hl]
  by_cases h1 : (jumpTarget mem func.val).getD 0 = 0
  · rw [if_pos h1, if_pos h1]
    by_cases h2 : readBytes mem func.val 4 = some ThunkCode
    · rw [if_pos h2, if_pos h2]
      have := read_snd_of_some ⟨func.val⟩ mem 4 ThunkCode h2
      simp only [this]
    · rw [if_neg h2, if_neg h2]
      exact h1
  · rw [if_neg h1, if_neg h1]

theorem thunkTest_snd_of_not_thunk (stream : CodeStream) (mem : Memory) (func : Ptr)
    (h : ¬ IsThunk mem func) : (thunkTest stream mem func).2 = 0 := by
  rw [thunkTest_snd]
  unfold IsThunk at h
  push_neg at h
  rw [if_pos h.1]
  by_cases h2 : readBytes mem func.val 4 = some ThunkCode
  · rw [if_pos h2]; exact h.2 h2
  · rw [if_neg h2]

/-- After a successful `intercept` the entry of `func` jumps to `newFunc` and
the map records the returned pointer. -/
theorem interceptImpl_post (tg : TrampolineGenerator σ) (s : FuncInterceptor σ)
    (func newFunc : Ptr) (h : (interceptImpl tg s func newFunc).1 ≠ 0) :
    IsJumpTo (interceptImpl tg s func newFunc).2.mem func newFunc ∧
    (interceptImpl tg s func newFunc).2.originalFunctions.find func
      = some (interceptImpl tg s func newFunc).1 := by
  obtain ⟨hm, ho, -, -, -, -⟩ := interceptImpl_of_ok tg s func newFunc h
  constructor
  · unfold IsJumpTo
    rw [hm]
    exact jumpTarget_writeRel32Jump s.mem func newFunc ⟨func.val⟩
  · rw [ho]
    exact FuncMap.find_set_self _ _ _

/-! ## The claims about a single call -/

/-- C1: `intercept(func, newFunc)` with the stream unavailable, `func` null or
`newFunc` null returns null and leaves the whole state as it was: the memory,
the trampoline generator and the list of its calls, and the interception
map. -/
theorem intercept_invalid_no_effect (tg : TrampolineGenerator σ) (s : FuncInterceptor σ)
    (func newFunc : Ptr) (h : s.stream = none ∨ func = 0 ∨ newFunc = 0) :
    interceptImpl tg s func newFunc = (0, s) := by
  unfold interceptImpl
  cases hs : s.stream with
  | none => rfl
  | some stream =>
    have hg : func = 0 ∨ newFunc = 0 := by
      rcases h with h | h
      · rw [hs] at h; cases h
      · exact h
    simp only [if_pos hg]

theorem intercept_invalid_no_effect_witness :
    interceptImpl bumpGen (fresh plainCode none) 0x1000 0x3000
        = (0, fresh plainCode none) ∧
    interceptImpl bumpGen (fresh plainCode (some ⟨0⟩)) 0 0x3000
        = (0, fresh plainCode (some ⟨0⟩)) ∧
    interceptImpl bumpGen (fresh plainCode (some ⟨0⟩)) 0x1000 0
        = (0, fresh plainCode (some ⟨0⟩)) :=
  ⟨intercept_invalid_no_effect bumpGen (fresh plainCode none) 0x1000 0x3000 (Or.inl rfl),
   intercept_invalid_no_effect bumpGen (fresh plainCode (some ⟨0⟩)) 0 0x3000
     (Or.inr (Or.inl rfl)),
   intercept_invalid_no_effect bumpGen (fresh plainCode (some ⟨0⟩)) 0x1000 0
     (Or.inr (Or.inr rfl))⟩

/-- C2: failure isolation.  For non-null `func` and `newFunc` whose entry is
not recognised as a thunk, when `createTrampoline(func, 5)` returns null,
`intercept` returns null, every byte of memory is as before the call and the
interception map is unchanged. -/
theorem intercept_trampoline_failure_isolated (tg : TrampolineGenerator σ)
    (s : FuncInterceptor σ) (func newFunc : Ptr) (hf : func ≠ 0) (hn : newFunc ≠ 0)
    (hth : ¬ IsThunk s.mem func) (ht : (tg s.trampolineGen s.mem func 5).1 = 0) :
    (interceptImpl tg s func newFunc).1 = 0 ∧
    (interceptImpl tg s func newFunc).2.mem = s.mem ∧
    (interceptImpl tg s func newFunc).2.originalFunctions = s.originalFunctions := by
  have h0 : (interceptImpl tg s func newFunc).1 = 0 := by
    cases hs : s.stream with
    | none => simp [interceptImpl, hs]
    | some stream =>
      rw [interceptImpl_eq tg s func newFunc stream hs hf hn,
        if_pos (thunkTest_snd_of_not_thunk stream s.mem func hth)]
      have ht2 : (tg s.trampolineGen s.mem func JumpSize).1 = 0 := ht
      rw [if_pos ht2]
  have h1 := interceptImpl_of_fail tg s func newFunc h0
  exact ⟨h0, h1.1, h1.2.1⟩

theorem intercept_trampoline_failure_isolated_witness :
    (interceptImpl failGen (fresh plainCode (some ⟨0⟩)) 0x1000 0x3000).1 = 0 ∧
    (interceptImpl failGen (fresh plainCode (some ⟨0⟩)) 0x1000 0x3000).2.mem = plainCode ∧
    (interceptImpl failGen (fresh plainCode (some ⟨0⟩)) 0x1000 0x3000).2.originalFunctions
      = [] :=
  intercept_trampoline_failure_isolated failGen (fresh plainCode (some ⟨0⟩)) 0x1000 0x3000
    (by decide) (by decide) (by decide) (by decide)

/-- C3, as amended: with the code stream available, for every non-null `func`
whose entry is a five-byte relative jump to a non-null target `T` and every
non-null `newFunc`, `intercept(func, newFunc)` does not call
`createTrampoline` (the generator and the list of its calls are unchanged) and
returns `T`. -/
theorem intercept_thunk_shortcut (tg : TrampolineGenerator σ) (s : FuncInterceptor σ)
    (func newFunc T : Ptr) (stream : CodeStream) (hs : s.stream = some stream)
    (hf : func ≠ 0) (hn : newFunc ≠ 0) (hj : IsJumpTo s.mem func T) (hT : T ≠ 0) :
    (interceptImpl tg s func newFunc).1 = T ∧
    (interceptImpl tg s func newFunc).2.trampolineCalls = s.trampolineCalls ∧
    (interceptImpl tg s func newFunc).2.trampolineGen = s.trampolineGen := by
  have h1 : (thunkTest stream s.mem func).2 = T := by
    unfold IsJumpTo at hj
    rw [thunkTest_snd, hj]
    simp only [Option.getD_some]
    rw [if_neg hT]
  rw [interceptImpl_eq tg s func newFunc stream hs hf hn, h1, if_neg hT]
  exact ⟨rfl, rfl, rfl⟩

theorem intercept_thunk_shortcut_witness :
    (interceptImpl bumpGen (fresh thunkCode (some ⟨0⟩)) 0x1000 0x3000).1 = 0x2000 ∧
    (interceptImpl bumpGen (fresh thunkCode (some ⟨0⟩)) 0x1000 0x3000).2.trampolineCalls
      = [] ∧
    (interceptImpl bumpGen (fresh thunkCode (some ⟨0⟩)) 0x1000 0x3000).2.trampolineGen = 0 :=
  intercept_thunk_shortcut bumpGen (fresh thunkCode (some ⟨0⟩)) 0x1000 0x3000 0x2000 ⟨0⟩
    rfl (by decide) (by decide) (by decide) (by decide)

/-- C3 as stated fails when the stream is unavailable: the entry of `0x1000` is
a jump to the non-null `0x2000` and `newFunc` is non-null, yet `intercept`
returns null and not `0x2000`. -/
theorem intercept_thunk_shortcut_needs_stream :
    IsJumpTo (fresh thunkCode none).mem 0x1000 0x2000 ∧ (0x2000 : Ptr) ≠ 0 ∧
    (0x3000 : Ptr) ≠ 0 ∧
    (interceptImpl bumpGen (fresh thunkCode none) 0x1000 0x3000).1 = 0 ∧
    (interceptImpl bumpGen (fresh thunkCode none) 0x1000 0x3000).1 ≠ 0x2000 := by
  decide

/-- C4: when `intercept(func, newFunc)` returns a non-null pointer `P`, the
five bytes at the entry of `func` encode a relative jump to `newFunc`, the
interception map records `func -> P` with the very pointer returned, and the
record of every other function is unchanged. -/
theorem intercept_success_post (tg : TrampolineGenerator σ) (s : FuncInterceptor σ)
    (func newFunc : Ptr) (h : (interceptImpl tg s func newFunc).1 ≠ 0) :
    IsJumpTo (interceptImpl tg s func newFunc).2.mem func newFunc ∧
    (interceptImpl tg s func newFunc).2.originalFunctions.find func
      = some (interceptImpl tg s func newFunc).1 ∧
    ∀ f, f ≠ func →
      (interceptImpl tg s func newFunc).2.originalFunctions.find f
        = s.originalFunctions.find f := by
  obtain ⟨-, ho, -, -, -, -⟩ := interceptImpl_of_ok tg s func newFunc h
  have h1 := interceptImpl_post tg s func newFunc h
  refine ⟨h1.1, h1.2, ?_⟩
  intro f hne
  rw [ho]
  exact FuncMap.find_set_ne _ _ _ _ hne

theorem intercept_success_post_witness :
    IsJumpTo (interceptImpl bumpGen (fresh plainCode (some ⟨0⟩)) 0x1000 0x3000).2.mem
      0x1000 0x3000 ∧
    (interceptImpl bumpGen (fresh plainCode (some ⟨0⟩)) 0x1000 0x3000).2.originalFunctions.find
        0x1000
      = some (interceptImpl bumpGen (fresh plainCode (some ⟨0⟩)) 0x1000 0x3000).1 ∧
    ∀ f, f ≠ 0x1000 →
      (interceptImpl bumpGen (fresh plainCode (some ⟨0⟩)) 0x1000 0x3000).2.originalFunctions.find f
        = (fresh plainCode (some ⟨0⟩)).originalFunctions.find f :=
  intercept_success_post bumpGen (fresh plainCode (some ⟨0⟩)) 0x1000 0x3000 (by decide)

/-- The state after `restore(func)` when `func` has the record `P`. -/
theorem restore_of_find (s : FuncInterceptor σ) (func P : Ptr) (stream : CodeStream)
    (hs : s.stream = some stream) (hrec : s.originalFunctions.find func = some P) :
    restore s func =
      { s with mem := CodeStream.writeRel32Jump ⟨func.val⟩ s.mem P,
               stream := some ⟨func.val⟩,
               originalFunctions := s.originalFunctions.erase func } := by
  unfold restore
  rw [hs]
  simp only [hrec, restoreTo, hs, CodeStream.seekTo]

/-- When `func` has no record, `restore(func)` does nothing. -/
theorem restore_of_find_none (s : FuncInterceptor σ) (func : Ptr)
    (hrec : s.originalFunctions.find func = none) : restore s func = s := by
  unfold restore
  cases hs : s.stream with
  | none => rfl
  | some stream => simp only [hrec]

/-- C5: for a function `func` with the record `func -> P` and the stream
available, `restore(func)` rewrites the entry of `func` to a relative jump to
`P`, removes the record of `func` and leaves the record of every other function
unchanged. -/
theorem restore_recorded (s : FuncInterceptor σ) (func P : Ptr) (stream : CodeStream)
    (hs : s.stream = some stream) (hrec : s.originalFunctions.find func = some P) :
    IsJumpTo (restore s func).mem func P ∧
    (restore s func).originalFunctions.find func = none ∧
    ∀ f, f ≠ func →
      (restore s func).originalFunctions.find f = s.originalFunctions.find f := by
  rw [restore_of_find s func P stream hs hrec]
  refine ⟨?_, ?_, ?_⟩
  · exact jumpTarget_writeRel32Jump s.mem func P ⟨func.val⟩
  · exact FuncMap.find_erase_self _ _
  · intro f hne
    exact FuncMap.find_erase_ne _ _ _ hne

theorem restore_recorded_witness :
    IsJumpTo (restore (interceptImpl bumpGen (fresh plainCode (some ⟨0⟩)) 0x1000 0x3000).2
      0x1000).mem 0x1000 0x5000 ∧
    (restore (interceptImpl bumpGen (fresh plainCode (some ⟨0⟩)) 0x1000 0x3000).2
      0x1000).originalFunctions.find 0x1000 = none ∧
    ∀ f, f ≠ 0x1000 →
      (restore (interceptImpl bumpGen (fresh plainCode (some ⟨0⟩)) 0x1000 0x3000).2
        0x1000).originalFunctions.find f
      = (interceptImpl bumpGen (fresh plainCode (some ⟨0⟩)) 0x1000
          0x3000).2.originalFunctions.find f :=
  restore_recorded (interceptImpl bumpGen (fresh plainCode (some ⟨0⟩)) 0x1000 0x3000).2
    0x1000 0x5000 ⟨0x1000⟩ (by decide) (by decide)

/-- C6: `restore(func)` on a function with no record changes nothing (no byte
of memory, not the map, nor anything else of the state); and for every state
and every `func`, restoring twice leaves the same state, so the same memory
and the same map, as restoring once. -/
theorem restore_idempotent (s : FuncInterceptor σ) (func : Ptr) :
    (s.originalFunctions.find func = none → restore s func = s) ∧
    restore (restore s func) func = restore s func ∧
    (restore (restore s func) func).mem = (restore s func).mem ∧
    (restore (restore s func) func).originalFunctions
      = (restore s func).originalFunctions := by
  have h2 : restore (restore s func) func = restore s func := by
    cases hs : s.stream with
    | none =>
      have h0 : restore s func = s := by simp only [restore, hs]
      rw [h0, h0]
    | some stream =>
      apply restore_of_find_none
      cases hrec : s.originalFunctions.find func with
      | none => rw [restore_of_find_none s func hrec]; exact hrec
      | some P =>
        rw [restore_of_find s func P stream hs hrec]
        exact FuncMap.find_erase_self _ _
  exact ⟨restore_of_find_none s func, h2, by rw [h2], by rw [h2]⟩

theorem restore_idempotent_witness :
    restore (fresh plainCode (some ⟨0⟩)) 0x1000 = fresh plainCode (some ⟨0⟩) :=
  (restore_idempotent (fresh plainCode (some ⟨0⟩)) 0x1000).1 (by decide)

/-- C8: round trip.  For a function `F` with no record and any `G` (non-null
whenever the call succeeds), when `intercept(F, G)` succeeds and returns `P`, the entry of `F` is a jump to `G`; after a following
`restore(F)` the entry of `F` is a jump to `P` and the interception map is
again the map before the intercept. -/
theorem hook_round_trip (tg : TrampolineGenerator σ) (s : FuncInterceptor σ) (F G : Ptr)
    (hrec : s.originalFunctions.find F = none)
    (hok : (interceptImpl tg s F G).1 ≠ 0) :
    IsJumpTo (interceptImpl tg s F G).2.mem F G ∧
    IsJumpTo (restore (interceptImpl tg s F G).2 F).mem F (interceptImpl tg s F G).1 ∧
    (restore (interceptImpl tg s F G).2 F).originalFunctions = s.originalFunctions := by
  obtain ⟨-, ho, hst, -, -, -⟩ := interceptImpl_of_ok tg s F G hok
  have h4 := interceptImpl_post tg s F G hok
  have hr := restore_of_find (interceptImpl tg s F G).2 F (interceptImpl tg s F G).1
    ⟨F.val⟩ hst h4.2
  refine ⟨h4.1, ?_, ?_⟩
  · rw [hr]
    exact jumpTarget_writeRel32Jump _ F _ ⟨F.val⟩
  · rw [hr]
    show FuncMap.erase F (interceptImpl tg s F G).2.originalFunctions = s.originalFunctions
    rw [ho]
    exact FuncMap.erase_set_of_find_none F _ _ hrec

theorem hook_round_trip_witness :
    IsJumpTo (interceptImpl bumpGen (fresh plainCode (some ⟨0⟩)) 0x1000 0x3000).2.mem
      0x1000 0x3000 ∧
    IsJumpTo (restore (interceptImpl bumpGen (fresh plainCode (some ⟨0⟩)) 0x1000 0x3000).2
      0x1000).mem 0x1000 (interceptImpl bumpGen (fresh plainCode (some ⟨0⟩)) 0x1000 0x3000).1 ∧
    (restore (interceptImpl bumpGen (fresh plainCode (some ⟨0⟩)) 0x1000 0x3000).2
      0x1000).originalFunctions = (fresh plainCode (some ⟨0⟩)).originalFunctions :=
  hook_round_trip bumpGen (fresh plainCode (some ⟨0⟩)) 0x1000 0x3000
    (by decide) (by decide)

/-- C9, as amended: with the code stream available and `func`, `newFunc`
non-null, for a function whose first instruction is not a relative jump: when
its first four bytes are `0x55 0x89 0xE5 0x5D` and the bytes at `func + 4`
encode a relative jump (measured from `func + 9`) to a non-null `T`,
`intercept(func, newFunc)` returns `T` without calling `createTrampoline`; when
the first four bytes differ from that pattern or cannot be read, the original
pointer is the result of the one call `createTrampoline(func, 5)`. -/
theorem intercept_frame_thunk (tg : TrampolineGenerator σ) (s : FuncInterceptor σ)
    (func newFunc : Ptr) (stream : CodeStream) (hs : s.stream = some stream)
    (hf : func ≠ 0) (hn : newFunc ≠ 0) (hnj : jumpTarget s.mem func.val = none) :
    (∀ T : Ptr, readBytes s.mem func.val 4 = some [0x55, 0x89, 0xE5, 0x5D] →
        jumpTarget s.mem (func.val + 4) = some T → T ≠ 0 →
        (interceptImpl tg s func newFunc).1 = T ∧
        (interceptImpl tg s func newFunc).2.trampolineCalls = s.trampolineCalls ∧
        (interceptImpl tg s func newFunc).2.trampolineGen = s.trampolineGen) ∧
    (readBytes s.mem func.val 4 ≠ some [0x55, 0x89, 0xE5, 0x5D] →
        (interceptImpl tg s func newFunc).1 = (tg s.trampolineGen s.mem func 5).1 ∧
        (interceptImpl tg s func newFunc).2.trampolineCalls
          = (func, 5) :: s.trampolineCalls) := by
  have hth := thunkTest_snd stream s.mem func
  rw [hnj] at hth
  simp only [Option.getD_none, if_true] at hth
  rw [interceptImpl_eq tg s func newFunc stream hs hf hn, hth]
  constructor
  · intro T hb hj hT
    have hb2 : readBytes s.mem func.val 4 = some ThunkCode := hb
    rw [if_pos hb2, hj]
    simp only [Option.getD_some]
    rw [if_neg hT]
    exact ⟨rfl, rfl, rfl⟩
  · intro hb
    have hb2 : ¬ readBytes s.mem func.val 4 = some ThunkCode := hb
    rw [if_neg hb2]
    simp only [if_true]
    by_cases ht : (tg s.trampolineGen s.mem func JumpSize).1 = 0
    · rw [if_pos ht]
      exact ⟨ht.symm, rfl⟩
    · rw [if_neg ht]
      exact ⟨rfl, rfl⟩

theorem intercept_frame_thunk_witness :
    ((interceptImpl bumpGen (fresh frameThunkCode (some ⟨0⟩)) 0x1000 0x3000).1 = 0x2000 ∧
      (interceptImpl bumpGen (fresh frameThunkCode (some ⟨0⟩)) 0x1000 0x3000).2.trampolineCalls
        = (fresh frameThunkCode (some ⟨0⟩)).trampolineCalls ∧
      (interceptImpl bumpGen (fresh frameThunkCode (some ⟨0⟩)) 0x1000 0x3000).2.trampolineGen
        = (fresh frameThunkCode (some ⟨0⟩)).trampolineGen) ∧
    ((interceptImpl bumpGen (fresh plainCode (some ⟨0⟩)) 0x1000 0x3000).1
        = (bumpGen (fresh plainCode (some ⟨0⟩)).trampolineGen
            (fresh plainCode (some ⟨0⟩)).mem 0x1000 5).1 ∧
      (interceptImpl bumpGen (fresh plainCode (some ⟨0⟩)) 0x1000 0x3000).2.trampolineCalls
        = (0x1000, 5) :: (fresh plainCode (some ⟨0⟩)).trampolineCalls) :=
  ⟨(intercept_frame_thunk bumpGen (fresh frameThunkCode (some ⟨0⟩)) 0x1000 0x3000 ⟨0⟩
      rfl (by decide) (by decide) (by decide)).1 0x2000 (by decide) (by decide) (by decide),
   (intercept_frame_thunk bumpGen (fresh plainCode (some ⟨0⟩)) 0x1000 0x3000 ⟨0⟩
      rfl (by decide) (by decide) (by decide)).2 (by decide)⟩

/-- C9 as stated fails when the stream is unavailable or `newFunc` is null:
the function at `0x1000` starts with `0x55 0x89 0xE5 0x5D`, is not a relative
jump itself and has a jump to the non-null `0x2000` at `0x1004`, yet
`intercept` returns null and not `0x2000`. -/
theorem intercept_frame_thunk_needs_stream :
    jumpTarget (fresh frameThunkCode none).mem 0x1000 = none ∧
    readBytes (fresh frameThunkCode none).mem 0x1000 4 = some [0x55, 0x89, 0xE5, 0x5D] ∧
    jumpTarget (fresh frameThunkCode none).mem (0x1000 + 4) = some 0x2000 ∧
    (0x2000 : Ptr) ≠ 0 ∧
    (interceptImpl bumpGen (fresh frameThunkCode none) 0x1000 0x3000).1 = 0 ∧
    (interceptImpl bumpGen (fresh frameThunkCode none) 0x1000 0x3000).1 ≠ 0x2000 ∧
    (interceptImpl bumpGen (fresh frameThunkCode (some ⟨0⟩)) 0x1000 0).1 = 0 ∧
    (interceptImpl bumpGen (fresh frameThunkCode (some ⟨0⟩)) 0x1000 0).1 ≠ 0x2000 := by
  decide

/-! ## restoreAll -/

theorem restoreTo_stream_isSome (s : FuncInterceptor σ) (func oldFunc : Ptr) :
    (restoreTo s func oldFunc).stream.isSome = s.stream.isSome := by
  unfold restoreTo
  cases hs : s.stream with
  | none => simp [hs]
  | some stream => simp

theorem restoreTo_mem (s : FuncInterceptor σ) (func oldFunc : Ptr)
    (hs : s.stream.isSome = true) :
    (restoreTo s func oldFunc).mem = CodeStream.writeRel32Jump ⟨func.val⟩ s.mem oldFunc := by
  unfold restoreTo
  cases h : s.stream with
  | none => rw [h] at hs; cases hs
  | some stream => rfl

theorem restoreTo_mem_of_outside (s : FuncInterceptor σ) (func oldFunc : Ptr) (x : Nat)
    (h : x < func.val ∨ func.val + 5 ≤ x) : (restoreTo s func oldFunc).mem x = s.mem x := by
  unfold restoreTo
  cases hs : s.stream with
  | none => rfl
  | some stream => exact writeRel32Jump_apply_of_outside s.mem func oldFunc stream x h

theorem foldl_restoreTo_stream_isSome (l : FuncMap) : ∀ s : FuncInterceptor σ,
    (l.foldl (fun acc p => restoreTo acc p.1 p.2) s).stream.isSome = s.stream.isSome := by
  induction l with
  | nil => intro s; rfl
  | cons p t ih =>
    intro s
    rw [List.foldl_cons, ih, restoreTo_stream_isSome]

theorem foldl_restoreTo_mem_of_outside (l : FuncMap) : ∀ (s : FuncInterceptor σ) (x : Nat),
    (∀ p ∈ l, x < p.1.val ∨ p.1.val + 5 ≤ x) →
    (l.foldl (fun acc p => restoreTo acc p.1 p.2) s).mem x = s.mem x := by
  induction l with
  | nil => intro s x _; rfl
  | cons p t ih =>
    intro s x h
    rw [List.foldl_cons, ih _ x (fun q hq => h q (List.mem_cons_of_mem _ hq)),
      restoreTo_mem_of_outside s p.1 p.2 x (h p (List.mem_cons_self _ _))]

/-- Walking a map whose entries do not overlap leaves every recorded function
with a jump to its recorded pointer. -/
theorem foldl_restoreTo_isJumpTo (l : FuncMap) : ∀ (s : FuncInterceptor σ),
    s.stream.isSome = true → FuncMap.Spaced l → ∀ p ∈ l,
    IsJumpTo (l.foldl (fun acc p => restoreTo acc p.1 p.2) s).mem p.1 p.2 := by
  induction l with
  | nil => intro s _ _ p hp; cases hp
  | cons q t ih =>
    intro s hs hl p hp
    unfold FuncMap.Spaced at hl
    rw [List.pairwise_cons] at hl
    rw [List.foldl_cons]
    rcases List.mem_cons.mp hp with h | h
    · subst h
      unfold IsJumpTo
      rw [jumpTarget_congr (restoreTo s p.1 p.2).mem _ p.1.val
        (fun x h1 h2 => foldl_restoreTo_mem_of_outside t _ x
          (fun r hr => Or.inl (by have := hl.1 r hr; omega)))]
      rw [restoreTo_mem s p.1 p.2 hs]
      exact jumpTarget_writeRel32Jump s.mem p.1 p.2 ⟨p.1.val⟩
    · exact ih (restoreTo s q.1 q.2) (by rw [restoreTo_stream_isSome]; exact hs) hl.2 p h

theorem restoreAll_mem (s : FuncInterceptor σ) :
    (restoreAll s).mem = (s.originalFunctions.foldl (fun acc p => restoreTo acc p.1 p.2) s).mem :=
  rfl

/-! ## interceptAll -/

theorem interceptImpl_stream_isSome (tg : TrampolineGenerator σ) (s : FuncInterceptor σ)
    (func newFunc : Ptr) :
    (interceptImpl tg s func newFunc).2.stream.isSome = s.stream.isSome := by
  by_cases h : (interceptImpl tg s func newFunc).1 = 0
  · exact (interceptImpl_of_fail tg s func newFunc h).2.2
  · obtain ⟨-, -, h1, h2, -, -⟩ := interceptImpl_of_ok tg s func newFunc h
    rw [h1, h2]; rfl

theorem interceptImpl_find_of_ne (tg : TrampolineGenerator σ) (s : FuncInterceptor σ)
    (func newFunc k : Ptr) (hk : k ≠ func) :
    (interceptImpl tg s func newFunc).2.originalFunctions.find k
      = s.originalFunctions.find k := by
  by_cases h : (interceptImpl tg s func newFunc).1 = 0
  · rw [(interceptImpl_of_fail tg s func newFunc h).2.1]
  · rw [(interceptImpl_of_ok tg s func newFunc h).2.1]
    exact FuncMap.find_set_ne _ _ _ _ hk

theorem interceptAll_stream_isSome (tg : TrampolineGenerator σ) (calls : List (Ptr × Ptr)) :
    ∀ s : FuncInterceptor σ, (interceptAll tg s calls).2.stream.isSome = s.stream.isSome := by
  induction calls with
  | nil => intro s; rfl
  | cons c cs ih =>
    intro s
    simp only [interceptAll]
    rw [ih, interceptImpl_stream_isSome]

theorem interceptAll_find_of_ne (tg : TrampolineGenerator σ) (calls : List (Ptr × Ptr))
    (k : Ptr) : ∀ s : FuncInterceptor σ, (∀ c ∈ calls, k ≠ c.1) →
    (interceptAll tg s calls).2.originalFunctions.find k = s.originalFunctions.find k := by
  induction calls with
  | nil => intro s _; rfl
  | cons c cs ih =>
    intro s h
    simp only [interceptAll]
    rw [ih _ (fun d hd => h d (List.mem_cons_of_mem _ hd)),
      interceptImpl_find_of_ne tg s c.1 c.2 k (h c (List.mem_cons_self _ _))]

/-- After successful intercepts of targets whose entries overlap neither each
other nor a recorded entry, the records are still spaced and every call has its
returned pointer on record. -/
theorem interceptAll_spaced (tg : TrampolineGenerator σ) (calls : List (Ptr × Ptr)) :
    ∀ s : FuncInterceptor σ, FuncMap.Spaced s.originalFunctions →
    (∀ p ∈ s.originalFunctions, ∀ c ∈ calls,
      p.1.val + 5 ≤ c.1.val ∨ c.1.val + 5 ≤ p.1.val) →
    calls.Pairwise (fun a b => a.1.val + 5 ≤ b.1.val ∨ b.1.val + 5 ≤ a.1.val) →
    (∀ r ∈ (interceptAll tg s calls).1, r ≠ 0) →
    FuncMap.Spaced (interceptAll tg s calls).2.originalFunctions ∧
    ∀ cr ∈ calls.zip (interceptAll tg s calls).1,
      (interceptAll tg s calls).2.originalFunctions.find cr.1.1 = some cr.2 := by
  induction calls with
  | nil =>
    intro s hs _ _ _
    exact ⟨hs, fun cr hcr => by simp [interceptAll] at hcr⟩
  | cons c cs ih =>
    intro s hs hmap hsep hok
    rw [List.pairwise_cons] at hsep
    simp only [interceptAll] at hok ⊢
    have h1 : (interceptImpl tg s c.1 c.2).1 ≠ 0 := hok _ (List.mem_cons_self _ _)
    obtain ⟨-, ho, -, -, -, -⟩ := interceptImpl_of_ok tg s c.1 c.2 h1
    have hs1 : FuncMap.Spaced (interceptImpl tg s c.1 c.2).2.originalFunctions := by
      rw [ho]
      exact FuncMap.spaced_set _ _ _ hs
        (fun p hp => Or.inr (hmap p hp c (List.mem_cons_self _ _)))
    have hmap1 : ∀ p ∈ (interceptImpl tg s c.1 c.2).2.originalFunctions, ∀ d ∈ cs,
        p.1.val + 5 ≤ d.1.val ∨ d.1.val + 5 ≤ p.1.val := by
      intro p hp d hd
      rw [ho] at hp
      rcases FuncMap.mem_set _ _ _ p hp with h | h
      · subst h; exact hsep.1 d hd
      · exact hmap p h d (List.mem_cons_of_mem _ hd)
    have hrec := ih (interceptImpl tg s c.1 c.2).2 hs1 hmap1 hsep.2
      (fun r hr => hok r (List.mem_cons_of_mem _ hr))
    refine ⟨hrec.1, ?_⟩
    intro cr hcr
    rw [List.zip_cons_cons] at hcr
    rcases List.mem_cons.mp hcr with h | h
    · subst h
      simp only
      rw [interceptAll_find_of_ne tg cs c.1 _
        (fun d hd => by
          have := hsep.1 d hd
          intro e; rw [e] at this; omega)]
      exact (interceptImpl_post tg s c.1 c.2 h1).2
    · exact hrec.2 cr h

/-- C7, as amended: after successful `intercept` calls on a new interceptor,
on targets whose five-byte entries are pairwise disjoint, `restoreAll` and
destroying the interceptor both leave the interception map empty and leave the
entry of each target as a relative jump to exactly the original pointer that
its `intercept` call returned (so to no other pointer). -/
theorem restoreAll_after_intercepts (tg : TrampolineGenerator σ) (s : FuncInterceptor σ)
    (calls : List (Ptr × Ptr)) (hfresh : s.originalFunctions = [])
    (hsep : calls.Pairwise (fun a b => a.1.val + 5 ≤ b.1.val ∨ b.1.val + 5 ≤ a.1.val))
    (hok : ∀ r ∈ (interceptAll tg s calls).1, r ≠ 0) :
    (restoreAll (interceptAll tg s calls).2).originalFunctions = [] ∧
    (destroy (interceptAll tg s calls).2).originalFunctions = [] ∧
    ∀ cr ∈ calls.zip (interceptAll tg s calls).1,
      IsJumpTo (restoreAll (interceptAll tg s calls).2).mem cr.1.1 cr.2 ∧
      IsJumpTo (destroy (interceptAll tg s calls).2).mem cr.1.1 cr.2 ∧
      ∀ T, IsJumpTo (restoreAll (interceptAll tg s calls).2).mem cr.1.1 T → T = cr.2 := by
  have hinv := interceptAll_spaced tg calls s (by rw [hfresh]; exact List.Pairwise.nil)
    (by rw [hfresh]; intro p hp; cases hp) hsep hok
  have hsome : calls ≠ [] → (interceptAll tg s calls).2.stream.isSome = true := by
    intro hne
    rw [interceptAll_stream_isSome]
    cases calls with
    | nil => exact absurd rfl hne
    | cons c cs =>
      simp only [interceptAll] at hok
      exact (interceptImpl_of_ok tg s c.1 c.2 (hok _ (List.mem_cons_self _ _))).2.2.2.1
  have hdestroy : calls ≠ [] →
      destroy (interceptAll tg s calls).2 = restoreAll (interceptAll tg s calls).2 := by
    intro hne
    have := hsome hne
    unfold destroy
    cases hst : (interceptAll tg s calls).2.stream with
    | none => rw [hst] at this; cases this
    | some st => rfl
  refine ⟨rfl, ?_, ?_⟩
  · cases calls with
    | nil =>
      unfold destroy
      simp only [interceptAll]
      cases hst : s.stream with
      | none => exact hfresh
      | some st => rfl
    | cons c cs => rw [hdestroy (by simp)]; rfl
  · intro cr hcr
    have hne : calls ≠ [] := by
      intro e; rw [e] at hcr; simp at hcr
    have hj : IsJumpTo (restoreAll (interceptAll tg s calls).2).mem cr.1.1 cr.2 := by
      rw [restoreAll_mem]
      exact foldl_restoreTo_isJumpTo _ _ (hsome hne) hinv.1 (cr.1.1, cr.2)
        (FuncMap.mem_of_find _ _ _ (hinv.2 cr hcr))
    refine ⟨hj, ?_, ?_⟩
    · rw [hdestroy hne]; exact hj
    · intro T hT
      unfold IsJumpTo at hj hT
      rw [hj] at hT
      exact (Option.some.inj hT).symm

theorem restoreAll_after_intercepts_witness :
    (restoreAll (interceptAll bumpGen (fresh plainCode (some ⟨0⟩)) hookApart).2).originalFunctions
      = [] ∧
    (destroy (interceptAll bumpGen (fresh plainCode (some ⟨0⟩)) hookApart).2).originalFunctions
      = [] ∧
    ∀ cr ∈ hookApart.zip (interceptAll bumpGen (fresh plainCode (some ⟨0⟩)) hookApart).1,
      IsJumpTo (restoreAll (interceptAll bumpGen (fresh plainCode (some ⟨0⟩)) hookApart).2).mem
        cr.1.1 cr.2 ∧
      IsJumpTo (destroy (interceptAll bumpGen (fresh plainCode (some ⟨0⟩)) hookApart).2).mem
        cr.1.1 cr.2 ∧
      ∀ T, IsJumpTo (restoreAll (interceptAll bumpGen (fresh plainCode (some ⟨0⟩))
        hookApart).2).mem cr.1.1 T → T = cr.2 :=
  restoreAll_after_intercepts bumpGen (fresh plainCode (some ⟨0⟩)) hookApart
    rfl (by decide)
    (by
      have e : (interceptAll bumpGen (fresh plainCode (some ⟨0⟩)) hookApart).1
          = [0x5000, 0x5010] := by decide
      rw [e]
      intro r hr
      rcases List.mem_cons.mp hr with h | h
      · rw [h]; decide
      · rw [List.mem_singleton.mp h]; decide)

/-- C7 as stated fails.  Hooking `0x1000` twice succeeds both times (returning
the trampoline `0x5000`, then the first replacement `0x3000`), and after
`restoreAll` or destruction the entry of `0x1000` is a jump to the replacement
function `0x3000`, not to the trampoline.  Hooking the overlapping entries
`0x1000` and `0x1003` succeeds both times, and after `restoreAll` the entry of
`0x1000` is not a jump to the trampoline `0x5000` it was given. -/
theorem restoreAll_after_intercepts_fails :
    ((fresh plainCode (some ⟨0⟩)).originalFunctions = [] ∧
      (interceptAll bumpGen (fresh plainCode (some ⟨0⟩)) hookTwice).1 = [0x5000, 0x3000] ∧
      IsJumpTo (restoreAll (interceptAll bumpGen (fresh plainCode (some ⟨0⟩)) hookTwice).2).mem
        0x1000 0x3000 ∧
      IsJumpTo (destroy (interceptAll bumpGen (fresh plainCode (some ⟨0⟩)) hookTwice).2).mem
        0x1000 0x3000 ∧
      ¬ IsJumpTo (restoreAll (interceptAll bumpGen (fresh plainCode (some ⟨0⟩)) hookTwice).2).mem
        0x1000 0x5000) ∧
    ((fresh tightCode (some ⟨0⟩)).originalFunctions = [] ∧
      (interceptAll bumpGen (fresh tightCode (some ⟨0⟩)) hookTight).1 = [0x5000, 0x5010] ∧
      ¬ IsJumpTo (restoreAll (interceptAll bumpGen (fresh tightCode (some ⟨0⟩)) hookTight).2).mem
        0x1000 0x5000 ∧
      ¬ IsJumpTo (destroy (interceptAll bumpGen (fresh tightCode (some ⟨0⟩)) hookTight).2).mem
        0x1000 0x5000) := by
  decide

/-! ## The state machine -/

theorem FuncMap.mem_erase (k : Ptr) (m : FuncMap) (p : Ptr × Ptr)
    (h : p ∈ FuncMap.erase k m) : p ∈ m ∧ p.1 ≠ k := by
  induction m with
  | nil => simp [FuncMap.erase] at h
  | cons q t ih =>
    obtain ⟨k', v'⟩ := q
    simp only [FuncMap.erase] at h
    split at h
    · exact ⟨List.mem_cons_of_mem _ (ih h).1, (ih h).2⟩
    · rename_i hne
      rcases List.mem_cons.mp h with h | h
      · subst h; exact ⟨List.mem_cons_self _ _, hne⟩
      · exact ⟨List.mem_cons_of_mem _ (ih h).1, (ih h).2⟩

theorem FuncMap.spaced_apart (m : FuncMap) (hm : FuncMap.Spaced m) (a b : Ptr × Ptr)
    (ha : a ∈ m) (hb : b ∈ m) :
    a.1 = b.1 ∨ a.1.val + 5 ≤ b.1.val ∨ b.1.val + 5 ≤ a.1.val := by
  induction m with
  | nil => cases ha
  | cons q t ih =>
    unfold FuncMap.Spaced at hm ih
    rw [List.pairwise_cons] at hm
    rcases List.mem_cons.mp ha with h1 | h1 <;> rcases List.mem_cons.mp hb with h2 | h2
    · left; rw [h1, h2]
    · right; left; rw [h1]; exact hm.1 b h2
    · right; right; rw [h2]; exact hm.1 a h1
    · exact ih hm.2 h1 h2

/-- The invariant of the state machine: the records are spaced, and every
recorded function carries a jump to the replacement of its most recent
successful intercept. -/
theorem reach_invariant (tg : TrampolineGenerator σ) (s : FuncInterceptor σ)
    (h : Ptr → Option Ptr) (hr : Reach tg Apart s h) :
    FuncMap.Spaced s.originalFunctions ∧
    ∀ p ∈ s.originalFunctions, ∃ G, h p.1 = some G ∧ IsJumpTo s.mem p.1 G := by
  induction hr with
  | fresh s hs =>
    rw [hs]
    exact ⟨List.Pairwise.nil, fun p hp => by cases hp⟩
  | interceptOk func newFunc _ hok hne ih =>
    obtain ⟨hm, ho, -, -, -, -⟩ := interceptImpl_of_ok tg _ func newFunc hne
    have hpost := interceptImpl_post tg _ func newFunc hne
    refine ⟨?_, ?_⟩
    · rw [ho]; exact FuncMap.spaced_set _ _ _ ih.1 hok
    · intro p hp
      by_cases hpf : p.1 = func
      · exact ⟨newFunc, by simp only [hpf, if_true], by rw [hpf]; exact hpost.1⟩
      · rw [ho] at hp
        rcases FuncMap.mem_set _ _ _ p hp with h1 | h1
        · exact absurd (by rw [h1]) hpf
        · obtain ⟨G, hG1, hG2⟩ := ih.2 p h1
          refine ⟨G, by simp only [if_neg hpf]; exact hG1, ?_⟩
          unfold IsJumpTo at hG2 ⊢
          rw [← hG2, hm]
          apply jumpTarget_congr
          intro x hx1 hx2
          have hap := hok p h1
          apply writeRel32Jump_apply_of_outside _ func newFunc ⟨func.val⟩ x
          rcases hap with e | e | e
          · exact absurd e hpf
          · left; omega
          · right; omega
  | interceptFail func newFunc _ hfail ih =>
    obtain ⟨hm, ho, -⟩ := interceptImpl_of_fail tg _ func newFunc hfail
    rw [hm, ho]
    exact ih
  | @restore s h func _ ih =>
    cases hs : s.stream with
    | none =>
      have h0 : CodeInjection.restore s func = s := by simp only [CodeInjection.restore, hs]
      rw [h0]; exact ih
    | some stream =>
      cases hrec : s.originalFunctions.find func with
      | none => rw [restore_of_find_none s func hrec]; exact ih
      | some P =>
        rw [restore_of_find s func P stream hs hrec]
        refine ⟨FuncMap.spaced_erase _ _ ih.1, ?_⟩
        intro p hp
        obtain ⟨hp1, hp2⟩ := FuncMap.mem_erase _ _ p hp
        obtain ⟨G, hG1, hG2⟩ := ih.2 p hp1
        refine ⟨G, hG1, ?_⟩
        unfold IsJumpTo at hG2 ⊢
        rw [← hG2]
        apply jumpTarget_congr
        intro x hx1 hx2
        apply writeRel32Jump_apply_of_outside _ func P ⟨func.val⟩ x
        rcases FuncMap.spaced_apart _ ih.1 p (func, P) hp1
          (FuncMap.mem_of_find _ _ _ hrec) with e | e | e
        · exact absurd e hp2
        · left; simp only at e; omega
        · right; simp only at e; omega
  | restoreAll _ _ =>
    exact ⟨List.Pairwise.nil, fun p hp => by cases hp⟩

/-- C10, as amended: in every state reachable from a new interceptor by
`intercept`, `restore` and `restoreAll` calls in which no successful
`intercept` targets a function whose five-byte entry overlaps the entry of
another function that has a record, every function with a record has at its
entry a relative jump to the replacement function of its most recent successful
`intercept`, and no function has two records. -/
theorem reachable_intercepted (tg : TrampolineGenerator σ) (s : FuncInterceptor σ)
    (h : Ptr → Option Ptr) (hr : Reach tg Apart s h) :
    (∀ f P, s.originalFunctions.find f = some P →
      ∃ G, h f = some G ∧ IsJumpTo s.mem f G) ∧
    (s.originalFunctions.map Prod.fst).Nodup := by
  have hinv := reach_invariant tg s h hr
  exact ⟨fun f P hf => hinv.2 (f, P) (FuncMap.mem_of_find _ _ _ hf),
    FuncMap.spaced_nodup _ hinv.1⟩

theorem reachable_intercepted_witness :
    Reach bumpGen Apart plainHooked plainReplacements ∧
    (∀ f P, plainHooked.originalFunctions.find f = some P →
      ∃ G, plainReplacements f = some G ∧ IsJumpTo plainHooked.mem f G) ∧
    (plainHooked.originalFunctions.map Prod.fst).Nodup := by
  have hreach : Reach bumpGen Apart plainHooked plainReplacements :=
    Reach.interceptOk 0x1000 0x3000 (Reach.fresh (fresh plainCode (some ⟨0⟩)) rfl)
      (fun p hp => absurd hp (List.not_mem_nil p)) (by decide)
  exact ⟨hreach, reachable_intercepted bumpGen plainHooked plainReplacements hreach⟩

/-- C10 as stated fails.  Hooking `0x1000` and then `0x1003`, whose entries
overlap, succeeds both times; in the state reached, `0x1000` has a record and
its most recent replacement is `0x3000`, yet its entry is not a jump to
`0x3000`. -/
theorem reachable_intercepted_fails :
    Reach bumpGen (fun _ _ => True) tightHooked tightReplacements ∧
    tightHooked.originalFunctions.find 0x1000 = some 0x5000 ∧
    tightReplacements 0x1000 = some 0x3000 ∧
    ¬ IsJumpTo tightHooked.mem 0x1000 0x3000 := by
  refine ⟨?_, by decide, by decide, by decide⟩
  exact Reach.interceptOk 0x1003 0x3100
    (Reach.interceptOk 0x1000 0x3000 (Reach.fresh (fresh tightCode (some ⟨0⟩)) rfl)
      trivial (by decide))
    trivial (by decide)

end CodeInjection
